import Mathlib

set_option maxHeartbeats 1000000

/-!
Shallow embedding of the skyline texture packer (files
`src/packer/skyline_packer.rs`, `src/frame.rs`, `src/texture/sub_texture.rs`)
and proofs about it.

Modelling conventions:
* `u32` values are modelled as `Nat`.  Subtraction is `Nat` truncated
  subtraction.  All subtractions on the verified paths are guarded by
  hypotheses that make them exact; where a `u32` subtraction would underflow
  a checked Rust build panics, and the corresponding degenerate inputs are
  treated explicitly in the theorems below.
* Rust panics (out-of-bounds indexing, `assert!` failures) are modelled as
  the outer `none` of `Option`-valued results: a function returning
  `Option (Option α)` yields `none` for a panic, `some none` for the Rust
  `None`, and `some (some a)` for `Some(a)`.
* `Rect` and `TexturePackerConfig` live in repository files that are not
  part of the given sources; they are modelled from the spec where marked.
-/

/-- Modelled from the spec: `Rect` (the repository file `rect.rs` is not in
the given sources).  An axis-aligned integer rectangle `{x, y, w, h}` with
edge queries; `contains` holds iff the other rectangle lies fully within
`self`'s bounds inclusive of edges.  Edges follow the same convention as the
`Skyline` accessors in `skyline_packer.rs` (`right = x + w - 1`). -/
structure Rect where
  x : Nat
  y : Nat
  w : Nat
  h : Nat
  deriving DecidableEq

def Rect.left (r : Rect) : Nat := r.x

def Rect.top (r : Rect) : Nat := r.y

def Rect.right (r : Rect) : Nat := r.x + r.w - 1

def Rect.bottom (r : Rect) : Nat := r.y + r.h - 1

/-- Modelled from the spec: `Rect::contains` — the other rectangle lies
fully within `self`'s bounds, inclusive of edges. -/
def Rect.contains (outer inner : Rect) : Bool :=
  decide (outer.left ≤ inner.left) && decide (inner.right ≤ outer.right) &&
    decide (outer.top ≤ inner.top) && decide (inner.bottom ≤ outer.bottom)

/-- Modelled from the spec: the packer configuration (the repository file
`texture_packer_config.rs` is not in the given sources).  Exactly the fields
the spec enumerates and `skyline_packer.rs` reads. -/
structure TexturePackerConfig where
  max_width : Nat
  max_height : Nat
  allow_rotation : Bool
  texture_padding : Nat
  texture_extrusion : Nat
  deriving DecidableEq

/-- `Frame<K>` from `frame.rs`. -/
structure Frame (K : Type) where
  key : K
  frame : Rect
  rotated : Bool
  trimmed : Bool
  source : Rect
  deriving DecidableEq

/-- `Frame::offset_to_frame_center_before_trimming` from `frame.rs`. -/
def Frame.offset_to_frame_center_before_trimming (f : Frame K) : Nat × Nat :=
  if !f.trimmed then (0, 0)
  else
    let trim_x := f.source.x
    let trim_y := f.source.y
    let og_start_x := f.frame.x - trim_x
    let og_start_y := f.frame.y - trim_y
    let og_start_w := f.source.w
    let og_start_h := f.source.h
    let center_x := og_start_x + og_start_w / 2
    let center_y := og_start_y + og_start_h / 2
    let trimmed_center_x := f.frame.x + f.frame.w / 2
    let trimmed_center_y := f.frame.y + f.frame.h / 2
    (center_x - trimmed_center_x, center_y - trimmed_center_y)

/-- `Frame::frame_center_before_trimming` from `frame.rs`. -/
def Frame.frame_center_before_trimming (f : Frame K) : Nat × Nat :=
  if !f.trimmed then
    (f.frame.x + f.frame.w / 2, f.frame.y + f.frame.h / 2)
  else
    let trim_x := f.source.x
    let trim_y := f.source.y
    let og_start_x := f.frame.x - trim_x
    let og_start_y := f.frame.y - trim_y
    let og_start_w := f.source.w
    let og_start_h := f.source.h
    (og_start_x + og_start_w / 2, og_start_y + og_start_h / 2)

/-- `Skyline` segment from `skyline_packer.rs`. -/
structure Skyline where
  x : Nat
  y : Nat
  w : Nat
  deriving DecidableEq

def Skyline.left (s : Skyline) : Nat := s.x

def Skyline.right (s : Skyline) : Nat := s.x + s.w - 1

/-- `SkylinePacker` state from `skyline_packer.rs`. -/
structure SkylinePacker where
  config : TexturePackerConfig
  border : Rect
  skylines : List Skyline
  deriving DecidableEq

/-- `SkylinePacker::new`. -/
def SkylinePacker.new (config : TexturePackerConfig) : SkylinePacker :=
  { config := config
    border := ⟨0, 0, config.max_width, config.max_height⟩
    skylines := [⟨0, 0, config.max_width⟩] }

/-- The loop body of `SkylinePacker::can_put`: walks consecutive segments,
raising `rect.y` to each segment's height, until the accumulated width
covers `width_left`.  Outer `none` models the `assert!(i < len)` panic when
the walk steps past the last segment. -/
def canPutAux (border : Rect) : List Skyline → Rect → Nat → Option (Option Rect)
  | [], _, _ => none
  | s :: rest, rect, widthLeft =>
    let rect := { rect with y := max rect.y s.y }
    if border.contains rect = false then some none
    else if widthLeft ≤ s.w then some (some rect)
    else canPutAux border rest rect (widthLeft - s.w)

/-- `SkylinePacker::can_put`: `none` models a panic (index `i` out of bounds
or the in-loop assertion), `some none` the Rust `None`, `some (some r)` the
Rust `Some(r)`. -/
def canPut (p : SkylinePacker) (i w h : Nat) : Option (Option Rect) :=
  match p.skylines.drop i with
  | [] => none
  | s :: rest => canPutAux p.border (s :: rest) ⟨s.x, 0, w, h⟩ w

/-- Width of skyline segment `i` (only consulted for `i` in bounds). -/
def segW (p : SkylinePacker) (i : Nat) : Nat :=
  (p.skylines.getD i ⟨0, 0, 0⟩).w

/-- Accumulator of the `find_skyline` scan: current best bottom, best
starting-segment width, best index, best rectangle. -/
structure FsAcc where
  bottom : Nat
  width : Nat
  index : Option Nat
  rect : Rect
  deriving DecidableEq

/-- `u32::MAX`, the initial value of `bottom` and `width` in
`find_skyline`. -/
def u32Max : Nat := 4294967295

/-- The comparison `r.bottom() < bottom || (r.bottom() == bottom &&
skylines[i].w < width)` from `find_skyline`. -/
def fsBetter (r : Rect) (sw : Nat) (acc : FsAcc) : Bool :=
  decide (r.bottom < acc.bottom) ||
    (decide (r.bottom = acc.bottom) && decide (sw < acc.width))

/-- One `if let Some(r) = can_put(..)` block of `find_skyline`. -/
def fsConsider (i sw : Nat) (o : Option Rect) (acc : FsAcc) : FsAcc :=
  match o with
  | none => acc
  | some r => if fsBetter r sw acc then ⟨r.bottom, sw, some i, r⟩ else acc

/-- The `for i in 0..self.skylines.len()` loop of `find_skyline`, over the
list of remaining indices.  A panic inside `can_put` propagates. -/
def fsGo (p : SkylinePacker) (w h : Nat) : List Nat → FsAcc → Option FsAcc
  | [], acc => some acc
  | i :: is, acc =>
    match canPut p i w h with
    | none => none
    | some o1 =>
      let acc1 := fsConsider i (segW p i) o1 acc
      if p.config.allow_rotation then
        match canPut p i h w with
        | none => none
        | some o2 => fsGo p w h is (fsConsider i (segW p i) o2 acc1)
      else fsGo p w h is acc1

/-- `SkylinePacker::find_skyline`. -/
def findSkyline (p : SkylinePacker) (w h : Nat) : Option (Option (Nat × Rect)) :=
  match fsGo p w h (List.range p.skylines.length) ⟨u32Max, u32Max, none, ⟨0, 0, 0, 0⟩⟩ with
  | none => none
  | some acc => some (acc.index.map (fun x => (x, acc.rect)))

/-- The absorb/shrink loop of `SkylinePacker::split` (the loop variable `i`
is never incremented in the source, so the loop always compares the newly
inserted segment `prev` with the segment directly after it).  `none` models
the `assert!(skylines[i-1].left() <= skylines[i].left())` panic. -/
def splitLoop (prev : Skyline) : List Skyline → Option (List Skyline)
  | [] => some []
  | s :: rest =>
    if prev.left ≤ s.left then
      if s.left ≤ prev.right then
        let shrink := prev.right - s.left + 1
        if s.w ≤ shrink then splitLoop prev rest
        else some (⟨s.x + shrink, s.y, s.w - shrink⟩ :: rest)
      else some (s :: rest)
    else none

/-- `SkylinePacker::split`.  `none` models a failure of one of the two
leading `assert!`s or of the in-loop assertion.  The insertion at `index`
is modelled with `take`/`drop`; `split` is only invoked with `index` in
bounds, where this agrees with `Vec::insert`. -/
def split (p : SkylinePacker) (index : Nat) (rect : Rect) : Option SkylinePacker :=
  let skyline : Skyline := ⟨rect.left, rect.bottom + 1, rect.w⟩
  if skyline.right ≤ p.border.right ∧ skyline.y ≤ p.border.bottom then
    match splitLoop skyline (p.skylines.drop index) with
    | none => none
    | some tail => some { p with skylines := p.skylines.take index ++ skyline :: tail }
  else none

/-- The fusing loop of `SkylinePacker::merge` on the segment list: adjacent
segments of equal `y` are merged into one wider segment.  Structural
recursion on a fuel counter (each iteration either consumes one list element
or removes one, so `l.length` fuel always suffices; see
`mergeFuel_enough`). -/
def mergeFuel : Nat → List Skyline → List Skyline
  | 0, l => l
  | fuel + 1, l =>
    match l with
    | [] => []
    | [s] => [s]
    | a :: b :: rest =>
      if a.y = b.y then mergeFuel fuel (⟨a.x, a.y, a.w + b.w⟩ :: rest)
      else a :: mergeFuel fuel (b :: rest)

/-- The fusing loop of `SkylinePacker::merge`, with sufficient fuel. -/
def mergeList (l : List Skyline) : List Skyline := mergeFuel l.length l

/-- `SkylinePacker::merge`. -/
def merge (p : SkylinePacker) : SkylinePacker :=
  { p with skylines := mergeList p.skylines }

/-- `Packer::pack` for `SkylinePacker`.  Outer `none` models a panic inside
`find_skyline` or `split`; `some none` is the Rust `None` (no placement). -/
def pack (p : SkylinePacker) (key : K) (texture_rect : Rect) :
    Option (Option (Frame K × SkylinePacker)) :=
  let pad := p.config.texture_padding + p.config.texture_extrusion * 2
  let width := texture_rect.w + pad
  let height := texture_rect.h + pad
  match findSkyline p width height with
  | none => none
  | some none => some none
  | some (some (i, rect)) =>
    match split p i rect with
    | none => none
    | some p1 =>
      let p2 := merge p1
      let rotated := decide (width ≠ rect.w)
      some (some
        (⟨key, ⟨rect.x, rect.y, rect.w - pad, rect.h - pad⟩, rotated, false,
          ⟨0, 0, texture_rect.w, texture_rect.h⟩⟩, p2))

/-- `Packer::can_pack` for `SkylinePacker`.  Outer `none` models a panic
inside `find_skyline`. -/
def canPack (p : SkylinePacker) (texture_rect : Rect) : Option Bool :=
  let pad := p.config.texture_padding + p.config.texture_extrusion * 2
  match findSkyline p (texture_rect.w + pad) (texture_rect.h + pad) with
  | none => none
  | some none => some false
  | some (some (_, rect)) =>
    let skyline : Skyline := ⟨rect.left, rect.bottom + 1, rect.w⟩
    some (decide (skyline.right ≤ p.border.right) && decide (skyline.y ≤ p.border.bottom))

/-- Rust `u32::clamp(min, max)`: `min` if below, `max` if above, the value
otherwise (the source always calls it with `min ≤ max`). -/
def clampU (v lo hi : Nat) : Nat :=
  if v < lo then lo else if hi < v then hi else v

/-- `Packer::frame_center_before_trimming` for `SkylinePacker` from
`skyline_packer.rs`. -/
def SkylinePacker.frame_center_before_trimming (p : SkylinePacker) (frame : Frame K) :
    Nat × Nat :=
  if !frame.trimmed then
    (frame.frame.x + frame.frame.w / 2, frame.frame.y + frame.frame.h / 2)
  else
    let trim_x := frame.source.x
    let trim_y := frame.source.y
    let og_start_x := frame.frame.x - trim_x
    let og_start_y := frame.frame.y - trim_y
    let og_start_w := frame.source.w
    let og_start_h := frame.source.h
    let center_x := og_start_x + og_start_w / 2
    let center_y := og_start_y + og_start_h / 2
    let clamp_x := clampU center_x p.border.x p.border.w
    let clamp_y := clampU center_y p.border.y p.border.h
    (clamp_x, clamp_y)

/-- Rust `Cow`: an owning or a borrowing handle on a value. -/
inductive Cow (T : Type u) where
  | owned (t : T)
  | borrowed (t : T)

def Cow.deref : Cow T → T
  | owned t => t
  | borrowed t => t

/-- Modelled from the spec: the abstract pixel surface (the `Texture` trait
is not in the given sources) — `width()`, `height()`, `get(x, y) ->
Option<Pixel>`, `set(x, y, val)`; `set` updates the pixel at `(x, y)`. -/
structure PixSurface (Pixel : Type) where
  width : Nat
  height : Nat
  pix : Nat → Nat → Option Pixel

def PixSurface.get (t : PixSurface Pixel) (x y : Nat) : Option Pixel := t.pix x y

def PixSurface.set (t : PixSurface Pixel) (x y : Nat) (v : Pixel) : PixSurface Pixel :=
  { t with pix := fun a b => if a = x && b = y then some v else t.pix a b }

/-- `SubTexture` from `sub_texture.rs`. -/
structure SubTexture (Pixel : Type) where
  texture : Cow (PixSurface Pixel)
  source : Rect

/-- `SubTexture::new`: owning view. -/
def SubTexture.new (texture : PixSurface Pixel) (source : Rect) : SubTexture Pixel :=
  { texture := Cow.owned texture, source := source }

/-- `SubTexture::from_ref`: borrowing view. -/
def SubTexture.from_ref (texture : PixSurface Pixel) (source : Rect) : SubTexture Pixel :=
  { texture := Cow.borrowed texture, source := source }

def SubTexture.width (st : SubTexture Pixel) : Nat := st.source.w

def SubTexture.height (st : SubTexture Pixel) : Nat := st.source.h

/-- `SubTexture::get`: delegates to the parent at translated coordinates,
with no bound check against the sub-rectangle. -/
def SubTexture.get (st : SubTexture Pixel) (x y : Nat) : Option Pixel :=
  st.texture.deref.get (st.source.x + x) (st.source.y + y)

/-- `SubTexture::set`: on an owning view, delegates the write to the parent
at translated coordinates; on a borrowing view it panics (`none`). -/
def SubTexture.set (st : SubTexture Pixel) (x y : Nat) (v : Pixel) :
    Option (SubTexture Pixel) :=
  match st.texture with
  | Cow.owned t =>
    some { st with texture := Cow.owned (t.set (st.source.x + x) (st.source.y + y) v) }
  | Cow.borrowed _ => none

/-- The skyline-profile tiling invariant from the spec: starting at `lo`,
the segments are consecutive (`s.x = lo`, next starts at `lo + s.w`), every
segment has positive width, and the spans exactly cover `[lo, hi)`.  It
implies sortedness by `x` (strictly increasing). -/
def tilesFrom : Nat → Nat → List Skyline → Prop
  | lo, hi, [] => lo = hi
  | lo, hi, s :: rest => s.x = lo ∧ 0 < s.w ∧ tilesFrom (lo + s.w) hi rest

instance instDecidableTilesFrom : (lo hi : Nat) → (l : List Skyline) →
    Decidable (tilesFrom lo hi l)
  | lo, hi, [] => if h : lo = hi then .isTrue h else .isFalse h
  | lo, hi, s :: rest =>
    match h1 : decide (s.x = lo), h2 : decide (0 < s.w),
        instDecidableTilesFrom (lo + s.w) hi rest with
    | true, true, .isTrue h3 => .isTrue ⟨of_decide_eq_true h1, of_decide_eq_true h2, h3⟩
    | _, _, .isFalse h3 => .isFalse fun h => h3 h.2.2
    | false, _, _ => .isFalse fun h => (of_decide_eq_false h1) h.1
    | _, false, _ => .isFalse fun h => (of_decide_eq_false h2) h.2.1

/-- A weaker profile property: segments are sorted and pairwise disjoint
(the next segment starts at or after the end of the previous one) and all
spans stay within `[lo, hi]`.  Unlike `tilesFrom` it tolerates gaps and
zero-width segments. -/
def chainFrom : Nat → Nat → List Skyline → Prop
  | lo, hi, [] => lo ≤ hi
  | lo, hi, s :: rest => lo ≤ s.x ∧ chainFrom (s.x + s.w) hi rest

instance instDecidableChainFrom : (lo hi : Nat) → (l : List Skyline) →
    Decidable (chainFrom lo hi l)
  | lo, hi, [] => if h : lo ≤ hi then .isTrue h else .isFalse h
  | lo, hi, s :: rest =>
    match h1 : decide (lo ≤ s.x), instDecidableChainFrom (s.x + s.w) hi rest with
    | true, .isTrue h2 => .isTrue ⟨of_decide_eq_true h1, h2⟩
    | _, .isFalse h2 => .isFalse fun h => h2 h.2
    | false, _ => .isFalse fun h => (of_decide_eq_false h1) h.1

/-- The full profile invariant of the spec: the border is the bin rectangle
`[0, max_width) × [0, max_height)` and the skylines tile `[0, max_width)`. -/
def SkylinePacker.ProfileInv (p : SkylinePacker) : Prop :=
  p.border = ⟨0, 0, p.config.max_width, p.config.max_height⟩ ∧
    tilesFrom 0 p.config.max_width p.skylines

/-- The weak structural invariant used for the containment proof: the border
is the bin rectangle and the skylines form a sorted disjoint chain within
`[0, max_width]`. -/
def SkylinePacker.ChainInv (p : SkylinePacker) : Prop :=
  p.border = ⟨0, 0, p.config.max_width, p.config.max_height⟩ ∧
    chainFrom 0 p.config.max_width p.skylines

instance instDecidableProfileInv (p : SkylinePacker) : Decidable p.ProfileInv := by
  unfold SkylinePacker.ProfileInv
  infer_instance

instance instDecidableChainInv (p : SkylinePacker) : Decidable p.ChainInv := by
  unfold SkylinePacker.ChainInv
  infer_instance

/-- States reachable from a freshly constructed packer by successful `pack`
calls (failed calls do not change the state). -/
inductive Reachable : SkylinePacker → Prop
  | init (config : TexturePackerConfig) : Reachable (SkylinePacker.new config)
  | step {p p' : SkylinePacker} {f : Frame Unit} {r : Rect} :
      Reachable p → pack p () r = some (some (f, p')) → Reachable p'

/-- Number of consecutive segments spanned while accumulating width `wl`
(the walk always examines at least the starting segment). -/
def spanLen : List Skyline → Nat → Nat
  | [], _ => 0
  | s :: rest, wl => if wl ≤ s.w then 1 else 1 + spanLen rest (wl - s.w)

/-- Maximum `y` among a list of segments (0 for the empty list). -/
def maxYList (l : List Skyline) : Nat := l.foldl (fun a s => max a s.y) 0

/-- Candidate placements examined by `find_skyline` for a `w × h` request:
a direct fit at segment `i`, or — when rotation is allowed — a fit of the
swapped orientation `h × w` at segment `i`. -/
def CandE (p : SkylinePacker) (w h i : Nat) (r : Rect) : Prop :=
  canPut p i w h = some (some r) ∨
    (p.config.allow_rotation = true ∧ canPut p i h w = some (some r))

/-- Lexicographic comparison on (bottom edge, starting-segment width): the
selection order of `find_skyline`. -/
def lexLE (b1 w1 b2 w2 : Nat) : Prop := b1 < b2 ∨ (b1 = b2 ∧ w1 ≤ w2)

/-- Invariant of the `find_skyline` scan relative to a set `S` of already
examined candidates: either no candidate has been seen (sentinel
accumulator), or the accumulator holds a lexicographically minimal examined
candidate. -/
def AccInvS (p : SkylinePacker) (S : Nat → Rect → Prop) (acc : FsAcc) : Prop :=
  (acc.index = none → acc.bottom = u32Max ∧ acc.width = u32Max ∧ ∀ j r, ¬ S j r) ∧
  (∀ i0, acc.index = some i0 →
    i0 < p.skylines.length ∧ S i0 acc.rect ∧ acc.bottom = acc.rect.bottom ∧
      acc.width = segW p i0 ∧ ∀ j r, S j r → lexLE acc.bottom acc.width r.bottom (segW p j))

theorem tilesFrom_nil_iff {lo hi : Nat} : tilesFrom lo hi [] ↔ lo = hi := Iff.rfl

theorem tilesFrom_cons_iff {lo hi : Nat} {s : Skyline} {rest : List Skyline} :
    tilesFrom lo hi (s :: rest) ↔ s.x = lo ∧ 0 < s.w ∧ tilesFrom (lo + s.w) hi rest :=
  Iff.rfl

theorem chainFrom_nil_iff {lo hi : Nat} : chainFrom lo hi [] ↔ lo ≤ hi := Iff.rfl

theorem chainFrom_cons_iff {lo hi : Nat} {s : Skyline} {rest : List Skyline} :
    chainFrom lo hi (s :: rest) ↔ lo ≤ s.x ∧ chainFrom (s.x + s.w) hi rest :=
  Iff.rfl

theorem chainFrom_le : ∀ {l : List Skyline} {lo hi : Nat}, chainFrom lo hi l → lo ≤ hi := by
  intro l
  induction l with
  | nil => intro lo hi h; exact h
  | cons s rest ih =>
    intro lo hi h
    rcases h with ⟨h1, h2⟩
    exact le_trans h1 (le_trans (Nat.le_add_right _ _) (ih h2))

theorem tilesFrom_le : ∀ {l : List Skyline} {lo hi : Nat}, tilesFrom lo hi l → lo ≤ hi := by
  intro l
  induction l with
  | nil => intro lo hi h; exact Nat.le_of_eq h
  | cons s rest ih =>
    intro lo hi h
    rcases h with ⟨h1, h2, h3⟩
    have := ih h3
    omega

theorem tilesFrom_chainFrom : ∀ {l : List Skyline} {lo hi : Nat},
    tilesFrom lo hi l → chainFrom lo hi l := by
  intro l
  induction l with
  | nil => intro lo hi h; exact Nat.le_of_eq h
  | cons s rest ih =>
    intro lo hi h
    rcases h with ⟨h1, h2, h3⟩
    exact ⟨Nat.le_of_eq h1.symm, h1 ▸ ih h3⟩

theorem chainFrom_anti : ∀ {l : List Skyline} {lo lo' hi : Nat},
    lo' ≤ lo → chainFrom lo hi l → chainFrom lo' hi l := by
  intro l
  induction l with
  | nil => intro lo lo' hi h1 h2; exact le_trans h1 h2
  | cons s rest _ =>
    intro lo lo' hi h1 h2
    exact ⟨le_trans h1 h2.1, h2.2⟩

theorem chainFrom_mem : ∀ {l : List Skyline} {lo hi : Nat} {s : Skyline},
    chainFrom lo hi l → s ∈ l → lo ≤ s.x ∧ s.x + s.w ≤ hi := by
  intro l
  induction l with
  | nil => intro lo hi s _ hm; cases hm
  | cons a rest ih =>
    intro lo hi s hc hm
    rcases List.mem_cons.mp hm with h | h
    · subst h
      exact ⟨hc.1, chainFrom_le hc.2⟩
    · have := ih hc.2 h
      constructor
      · calc lo ≤ a.x := hc.1
          _ ≤ a.x + a.w := Nat.le_add_right _ _
          _ ≤ s.x := this.1
      · exact this.2

theorem tilesFrom_mem : ∀ {l : List Skyline} {lo hi : Nat} {s : Skyline},
    tilesFrom lo hi l → s ∈ l → lo ≤ s.x ∧ s.x + s.w ≤ hi ∧ 0 < s.w := by
  intro l
  induction l with
  | nil => intro lo hi s _ hm; cases hm
  | cons a rest ih =>
    intro lo hi s ht hm
    rcases ht with ⟨h1, h2, h3⟩
    rcases List.mem_cons.mp hm with h | h
    · subst h
      have := tilesFrom_le h3
      omega
    · have := ih h3 h
      omega

theorem tilesFrom_append : ∀ {l1 l2 : List Skyline} {lo m hi : Nat},
    tilesFrom lo m l1 → tilesFrom m hi l2 → tilesFrom lo hi (l1 ++ l2) := by
  intro l1
  induction l1 with
  | nil =>
    intro l2 lo m hi h1 h2
    have : lo = m := h1
    simpa [this] using h2
  | cons s rest ih =>
    intro l2 lo m hi h1 h2
    exact ⟨h1.1, h1.2.1, ih h1.2.2 h2⟩

theorem chainFrom_append : ∀ {l1 l2 : List Skyline} {lo m hi : Nat},
    chainFrom lo m l1 → chainFrom m hi l2 → chainFrom lo hi (l1 ++ l2) := by
  intro l1
  induction l1 with
  | nil =>
    intro l2 lo m hi h1 h2
    simpa using chainFrom_anti h1 h2
  | cons s rest ih =>
    intro l2 lo m hi h1 h2
    exact ⟨h1.1, ih h1.2 h2⟩

theorem tilesFrom_take_drop : ∀ {i : Nat} {l : List Skyline} {lo hi : Nat}
    (h : i < l.length), tilesFrom lo hi l →
    tilesFrom lo l[i].x (l.take i) ∧ tilesFrom l[i].x hi (l.drop i) := by
  intro i
  induction i with
  | zero =>
    intro l lo hi h ht
    match l, h with
    | s :: rest, _ =>
      rcases ht with ⟨h1, h2, h3⟩
      subst h1
      exact ⟨rfl, rfl, h2, h3⟩
  | succ n ih =>
    intro l lo hi h ht
    match l, h with
    | s :: rest, h =>
      rcases ht with ⟨h1, h2, h3⟩
      have hlen : n < rest.length := by simpa using h
      have := ih hlen h3
      refine ⟨⟨h1, h2, ?_⟩, ?_⟩
      · simpa using this.1
      · simpa using this.2

theorem chainFrom_take_drop : ∀ {i : Nat} {l : List Skyline} {lo hi : Nat}
    (h : i < l.length), chainFrom lo hi l →
    chainFrom lo l[i].x (l.take i) ∧ chainFrom l[i].x hi (l.drop i) := by
  intro i
  induction i with
  | zero =>
    intro l lo hi h hc
    match l, h with
    | s :: rest, _ =>
      rcases hc with ⟨h1, h2⟩
      exact ⟨h1, Nat.le_refl _, h2⟩
  | succ n ih =>
    intro l lo hi h hc
    match l, h with
    | s :: rest, h =>
      rcases hc with ⟨h1, h2⟩
      have hlen : n < rest.length := by simpa using h
      have := ih hlen h2
      refine ⟨⟨h1, ?_⟩, ?_⟩
      · simpa using this.1
      · simpa using this.2

theorem canPutAux_some_fields : ∀ {l : List Skyline} {b r r' : Rect} {wl : Nat},
    canPutAux b l r wl = some (some r') →
    r'.x = r.x ∧ r'.w = r.w ∧ r'.h = r.h ∧ r.y ≤ r'.y := by
  intro l
  induction l with
  | nil => intro b r r' wl h; simp [canPutAux] at h
  | cons s rest ih =>
    intro b r r' wl h
    simp only [canPutAux] at h
    split at h
    · simp at h
    · split at h
      · simp only [Option.some.injEq] at h
        subst h
        exact ⟨rfl, rfl, rfl, Nat.le_max_left _ _⟩
      · have := ih h
        refine ⟨this.1, this.2.1, this.2.2.1, ?_⟩
        have : max r.y s.y ≤ r'.y := this.2.2.2
        omega

theorem canPutAux_some_contains : ∀ {l : List Skyline} {b r r' : Rect} {wl : Nat},
    canPutAux b l r wl = some (some r') → b.contains r' = true := by
  intro l
  induction l with
  | nil => intro b r r' wl h; simp [canPutAux] at h
  | cons s rest ih =>
    intro b r r' wl h
    simp only [canPutAux] at h
    split at h
    · simp at h
    · rename_i hc
      split at h
      · simp only [Option.some.injEq] at h
        subst h
        simpa using hc
      · exact ih h

theorem foldl_max_y : ∀ (l : List Skyline) (a : Nat),
    l.foldl (fun x s => max x s.y) a = max a (maxYList l) := by
  intro l
  induction l with
  | nil => intro a; simp [maxYList]
  | cons s rest ih =>
    intro a
    simp only [maxYList, List.foldl_cons] at *
    rw [ih (max a s.y), ih (max 0 s.y)]
    omega

theorem maxYList_cons (s : Skyline) (t : List Skyline) :
    maxYList (s :: t) = max s.y (maxYList t) := by
  have h0 : maxYList (s :: t) = List.foldl (fun a x => max a x.y) (max 0 s.y) t := rfl
  rw [h0, foldl_max_y]
  omega

theorem canPutAux_some_y : ∀ {l : List Skyline} {b r r' : Rect} {wl : Nat},
    canPutAux b l r wl = some (some r') →
    r' = ⟨r.x, max r.y (maxYList (l.take (spanLen l wl))), r.w, r.h⟩ := by
  intro l
  induction l with
  | nil => intro b r r' wl h; simp [canPutAux] at h
  | cons s rest ih =>
    intro b r r' wl h
    simp only [canPutAux] at h
    split at h
    · simp at h
    · split at h
      · rename_i hw
        simp only [Option.some.injEq] at h
        subst h
        simp only [spanLen, if_pos hw, List.take_succ_cons, List.take_zero]
        have hm : maxYList [s] = s.y := by simp [maxYList]
        rw [hm]
      · rename_i hw
        have := ih h
        rw [this]
        simp only [spanLen, if_neg hw]
        have ht : (s :: rest).take (1 + spanLen rest (wl - s.w)) =
            s :: rest.take (spanLen rest (wl - s.w)) := by
          rw [Nat.add_comm 1]
          simp [List.take_succ_cons]
        rw [ht, maxYList_cons]
        congr 1
        omega

theorem canPutAux_some_seg : ∀ {l : List Skyline} {b r r' : Rect} {wl : Nat},
    canPutAux b l r wl = some (some r') → 1 ≤ wl → ∃ s ∈ l, 1 ≤ s.w := by
  intro l
  induction l with
  | nil => intro b r r' wl h _; simp [canPutAux] at h
  | cons s rest ih =>
    intro b r r' wl h hwl
    simp only [canPutAux] at h
    split at h
    · simp at h
    · split at h
      · rename_i hw
        exact ⟨s, List.mem_cons_self _ _, by omega⟩
      · rename_i hw
        have := ih h (by omega)
        rcases this with ⟨t, ht, hw1⟩
        exact ⟨t, List.mem_cons_of_mem _ ht, hw1⟩

theorem canPutAux_ne_none : ∀ {rest : List Skyline} {s : Skyline} {c mw mh : Nat}
    {r : Rect} {wl : Nat},
    tilesFrom c mw (s :: rest) → r.x ≤ c → r.x + r.w = c + wl → 1 ≤ wl →
    canPutAux ⟨0, 0, mw, mh⟩ (s :: rest) r wl ≠ none := by
  intro rest
  induction rest with
  | nil =>
    intro s c mw mh r wl ht hxc hsum hwl
    rcases ht with ⟨h1, h2, h3⟩
    have hmw : c + s.w = mw := h3
    simp only [canPutAux]
    split
    · simp
    · rename_i hc
      split
      · simp
      · rename_i hw
        exfalso
        have hc' : Rect.contains ⟨0, 0, mw, mh⟩ { r with y := max r.y s.y } = true := by
          simpa using hc
        simp only [Rect.contains, Rect.left, Rect.right, Rect.top, Rect.bottom,
          Bool.and_eq_true, decide_eq_true_eq] at hc'
        omega
  | cons s' rest' ih =>
    intro s c mw mh r wl ht hxc hsum hwl
    rcases ht with ⟨h1, h2, h3⟩
    simp only [canPutAux]
    split
    · simp
    · rename_i hc
      split
      · simp
      · rename_i hw
        have hgoal : canPutAux ⟨0, 0, mw, mh⟩ (s' :: rest')
            { r with y := max r.y s.y } (wl - s.w) ≠ none := by
          refine ih h3 ?_ ?_ ?_
          · show r.x ≤ c + s.w
            omega
          · show r.x + r.w = c + s.w + (wl - s.w)
            omega
          · omega
        exact hgoal

theorem canPut_some_elim {p : SkylinePacker} {i w h : Nat} {r : Rect}
    (hcp : canPut p i w h = some (some r)) :
    i < p.skylines.length ∧ r.x = (p.skylines.getD i ⟨0, 0, 0⟩).x ∧ r.w = w ∧ r.h = h ∧
      p.border.contains r = true := by
  unfold canPut at hcp
  split at hcp
  · cases hcp
  · rename_i s rest heq
    have hi : i < p.skylines.length := by
      by_contra hnot
      rw [List.drop_eq_nil_of_le (by omega)] at heq
      cases heq
    have hfields := canPutAux_some_fields hcp
    have hcont := canPutAux_some_contains hcp
    have hs : p.skylines[i] = s := by
      have hd := List.drop_eq_getElem_cons hi
      rw [heq] at hd
      exact (List.cons_eq_cons.mp hd).1.symm
    have hgetD : p.skylines.getD i ⟨0, 0, 0⟩ = s := by
      rw [List.getD_eq_getElem _ _ hi, hs]
    refine ⟨hi, ?_, hfields.2.1, hfields.2.2.1, hcont⟩
    rw [hgetD]
    exact hfields.1

theorem canPut_ne_none {p : SkylinePacker} (hInv : p.ProfileInv) {i : Nat}
    (hi : i < p.skylines.length) (w h : Nat) : canPut p i w h ≠ none := by
  obtain ⟨hb, ht⟩ := hInv
  have hdrop := (tilesFrom_take_drop hi ht).2
  have hd := List.drop_eq_getElem_cons hi
  unfold canPut
  rw [hd]
  show canPutAux p.border (p.skylines[i] :: p.skylines.drop (i + 1))
      ⟨p.skylines[i].x, 0, w, h⟩ w ≠ none
  by_cases hw : w = 0
  · subst hw
    simp only [canPutAux]
    split
    · simp
    · rw [if_pos (Nat.zero_le _)]
      simp
  · rw [hb]
    rw [hd] at hdrop
    exact canPutAux_ne_none hdrop (Nat.le_refl _) rfl (by omega)

theorem fsConsider_ok {p : SkylinePacker} {w h i sw : Nat} {o : Option Rect} {acc : FsAcc}
    (hacc : ∀ i0, acc.index = some i0 → i0 < p.skylines.length ∧ CandE p w h i0 acc.rect)
    (hi : i < p.skylines.length)
    (ho : ∀ r, o = some r → CandE p w h i r) :
    ∀ i0, (fsConsider i sw o acc).index = some i0 →
      i0 < p.skylines.length ∧ CandE p w h i0 (fsConsider i sw o acc).rect := by
  intro i0 hidx
  cases o with
  | none => exact hacc i0 hidx
  | some r =>
    simp only [fsConsider] at hidx ⊢
    by_cases hbet : fsBetter r sw acc = true
    · rw [if_pos hbet] at hidx ⊢
      simp only [Option.some.injEq] at hidx
      subst hidx
      exact ⟨hi, ho r rfl⟩
    · rw [if_neg hbet] at hidx ⊢
      exact hacc i0 hidx

theorem fsGo_ok : ∀ {is : List Nat} {p : SkylinePacker} {w h : Nat} {acc acc' : FsAcc},
    fsGo p w h is acc = some acc' →
    (∀ i ∈ is, i < p.skylines.length) →
    (∀ i0, acc.index = some i0 → i0 < p.skylines.length ∧ CandE p w h i0 acc.rect) →
    ∀ i0, acc'.index = some i0 → i0 < p.skylines.length ∧ CandE p w h i0 acc'.rect := by
  intro is
  induction is with
  | nil =>
    intro p w h acc acc' hgo hmem hacc
    simp only [fsGo, Option.some.injEq] at hgo
    subst hgo
    exact hacc
  | cons i is ih =>
    intro p w h acc acc' hgo hmem hacc
    have hi : i < p.skylines.length := hmem i (List.mem_cons_self _ _)
    have hmem' : ∀ j ∈ is, j < p.skylines.length :=
      fun j hj => hmem j (List.mem_cons_of_mem _ hj)
    simp only [fsGo] at hgo
    split at hgo
    · cases hgo
    · rename_i o1 ho1
      split at hgo
      · rename_i hrot
        split at hgo
        · cases hgo
        · rename_i o2 ho2
          refine ih hgo hmem' ?_
          refine fsConsider_ok (fsConsider_ok hacc hi ?_) hi ?_
          · intro r hr
            exact Or.inl (hr ▸ ho1)
          · intro r hr
            exact Or.inr ⟨hrot, hr ▸ ho2⟩
      · refine ih hgo hmem' ?_
        refine fsConsider_ok hacc hi ?_
        intro r hr
        exact Or.inl (hr ▸ ho1)

theorem fsGo_ne_none : ∀ {is : List Nat} {p : SkylinePacker} {w h : Nat} {acc : FsAcc},
    p.ProfileInv → (∀ i ∈ is, i < p.skylines.length) → fsGo p w h is acc ≠ none := by
  intro is
  induction is with
  | nil => intro p w h acc _ _; simp [fsGo]
  | cons i is ih =>
    intro p w h acc hInv hmem
    have hi : i < p.skylines.length := hmem i (List.mem_cons_self _ _)
    have hmem' : ∀ j ∈ is, j < p.skylines.length :=
      fun j hj => hmem j (List.mem_cons_of_mem _ hj)
    simp only [fsGo]
    split
    · rename_i hcp
      exact absurd hcp (canPut_ne_none hInv hi w h)
    · split
      · split
        · rename_i hcp
          exact absurd hcp (canPut_ne_none hInv hi h w)
        · exact ih hInv hmem'
      · exact ih hInv hmem'

theorem findSkyline_some_elim {p : SkylinePacker} {w h i : Nat} {r : Rect}
    (hfs : findSkyline p w h = some (some (i, r))) :
    i < p.skylines.length ∧ CandE p w h i r := by
  unfold findSkyline at hfs
  split at hfs
  · cases hfs
  · rename_i acc hgo
    simp only [Option.some.injEq] at hfs
    cases hidx : acc.index with
    | none => rw [hidx] at hfs; simp at hfs
    | some j =>
      rw [hidx] at hfs
      simp only [Option.map_some', Option.some.injEq, Prod.mk.injEq] at hfs
      obtain ⟨hj, hr⟩ := hfs
      have hok := fsGo_ok hgo
        (fun x hx => List.mem_range.mp hx)
        (fun i0 h0 => absurd h0 (by simp))
        j hidx
      rw [hj] at hok
      rw [hr] at hok
      exact hok

theorem findSkyline_ne_none {p : SkylinePacker} (hInv : p.ProfileInv) (w h : Nat) :
    findSkyline p w h ≠ none := by
  unfold findSkyline
  split
  · rename_i hgo
    exact absurd hgo (fsGo_ne_none hInv (fun i hi => List.mem_range.mp hi))
  · simp

theorem splitLoop_some_of_sorted : ∀ {l : List Skyline} {prev : Skyline},
    (∀ s ∈ l, prev.x ≤ s.x) → ∃ l', splitLoop prev l = some l' := by
  intro l
  induction l with
  | nil => intro prev _; exact ⟨[], rfl⟩
  | cons s rest ih =>
    intro prev hmem
    have h1 : prev.x ≤ s.x := hmem s (List.mem_cons_self _ _)
    simp only [splitLoop, Skyline.left]
    rw [if_pos h1]
    by_cases hover : s.x ≤ prev.right
    · rw [if_pos hover]
      by_cases hsw : s.w ≤ prev.right - s.x + 1
      · rw [if_pos hsw]
        exact ih (fun t ht => hmem t (List.mem_cons_of_mem _ ht))
      · rw [if_neg hsw]
        exact ⟨_, rfl⟩
    · rw [if_neg hover]
      exact ⟨_, rfl⟩

theorem splitLoop_chain : ∀ {l : List Skyline} {prev : Skyline} {c hi : Nat},
    chainFrom c hi l → prev.x ≤ c → prev.x + prev.w ≤ hi →
    ∃ l', splitLoop prev l = some l' ∧ chainFrom (prev.x + prev.w) hi l' := by
  intro l
  induction l with
  | nil =>
    intro prev c hi hch hxc hhi
    exact ⟨[], rfl, hhi⟩
  | cons s rest ih =>
    intro prev c hi hch hxc hhi
    rcases hch with ⟨hcs, hch⟩
    have h1 : prev.x ≤ s.x := le_trans hxc hcs
    simp only [splitLoop, Skyline.left, Skyline.right]
    rw [if_pos h1]
    by_cases hover : s.x ≤ prev.x + prev.w - 1
    · rw [if_pos hover]
      by_cases hsw : s.w ≤ prev.x + prev.w - 1 - s.x + 1
      · rw [if_pos hsw]
        exact ih hch (by omega) hhi
      · rw [if_neg hsw]
        refine ⟨_, rfl, ?_, ?_⟩
        · show prev.x + prev.w ≤ s.x + (prev.x + prev.w - 1 - s.x + 1)
          omega
        · show chainFrom (s.x + (prev.x + prev.w - 1 - s.x + 1) + (s.w - (prev.x + prev.w - 1 - s.x + 1))) hi rest
          have heq : s.x + (prev.x + prev.w - 1 - s.x + 1) + (s.w - (prev.x + prev.w - 1 - s.x + 1)) = s.x + s.w := by
            omega
          rw [heq]
          exact hch
    · rw [if_neg hover]
      refine ⟨_, rfl, ?_, hch⟩
      omega

theorem splitLoop_tiles : ∀ {l : List Skyline} {prev : Skyline} {c hi : Nat},
    tilesFrom c hi l → prev.x ≤ c → c ≤ prev.x + prev.w → prev.x + prev.w ≤ hi →
    1 ≤ prev.w →
    ∃ l', splitLoop prev l = some l' ∧ tilesFrom (prev.x + prev.w) hi l' := by
  intro l
  induction l with
  | nil =>
    intro prev c hi ht hxc hce hhi hw
    have : c = hi := ht
    refine ⟨[], rfl, ?_⟩
    show prev.x + prev.w = hi
    omega
  | cons s rest ih =>
    intro prev c hi ht hxc hce hhi hw
    rcases ht with ⟨hsx, hsw, ht⟩
    have h1 : prev.x ≤ s.x := by omega
    simp only [splitLoop, Skyline.left, Skyline.right]
    rw [if_pos h1]
    by_cases hover : s.x ≤ prev.x + prev.w - 1
    · rw [if_pos hover]
      by_cases hs2 : s.w ≤ prev.x + prev.w - 1 - s.x + 1
      · rw [if_pos hs2]
        refine ih ht ?_ ?_ hhi hw
        · omega
        · omega
      · rw [if_neg hs2]
        refine ⟨_, rfl, ?_, ?_, ?_⟩
        · show s.x + (prev.x + prev.w - 1 - s.x + 1) = prev.x + prev.w
          omega
        · show 0 < s.w - (prev.x + prev.w - 1 - s.x + 1)
          omega
        · show tilesFrom (prev.x + prev.w + (s.w - (prev.x + prev.w - 1 - s.x + 1))) hi rest
          have heq : prev.x + prev.w + (s.w - (prev.x + prev.w - 1 - s.x + 1)) = c + s.w := by
            omega
          rw [heq]
          exact ht
    · rw [if_neg hover]
      have hce' : c = prev.x + prev.w := by omega
      refine ⟨_, rfl, ?_, hsw, ?_⟩
      · show s.x = prev.x + prev.w
        omega
      · show tilesFrom (prev.x + prev.w + s.w) hi rest
        rw [← hce']
        exact ht

theorem mergeFuel_tiles : ∀ (fuel : Nat) {l : List Skyline} {lo hi : Nat},
    tilesFrom lo hi l → tilesFrom lo hi (mergeFuel fuel l) := by
  intro fuel
  induction fuel with
  | zero => intro l lo hi h; exact h
  | succ n ih =>
    intro l lo hi h
    match l with
    | [] => exact h
    | [s] => exact h
    | a :: b :: rest =>
      rcases h with ⟨h1, h2, h3, h4, h5⟩
      by_cases hy : a.y = b.y
      · show tilesFrom lo hi (if a.y = b.y then mergeFuel n (⟨a.x, a.y, a.w + b.w⟩ :: rest)
          else a :: mergeFuel n (b :: rest))
        rw [if_pos hy]
        refine ih ?_
        refine ⟨h1, ?_, ?_⟩
        · show 0 < a.w + b.w
          omega
        · show tilesFrom (lo + (a.w + b.w)) hi rest
          have heq : lo + (a.w + b.w) = lo + a.w + b.w := by omega
          rw [heq]
          exact h5
      · show tilesFrom lo hi (if a.y = b.y then mergeFuel n (⟨a.x, a.y, a.w + b.w⟩ :: rest)
          else a :: mergeFuel n (b :: rest))
        rw [if_neg hy]
        exact ⟨h1, h2, ih ⟨h3, h4, h5⟩⟩

theorem mergeList_tiles {l : List Skyline} {lo hi : Nat}
    (h : tilesFrom lo hi l) : tilesFrom lo hi (mergeList l) :=
  mergeFuel_tiles l.length h

theorem mergeFuel_chain : ∀ (fuel : Nat) {l : List Skyline} {lo hi : Nat},
    chainFrom lo hi l → chainFrom lo hi (mergeFuel fuel l) := by
  intro fuel
  induction fuel with
  | zero => intro l lo hi h; exact h
  | succ n ih =>
    intro l lo hi h
    match l with
    | [] => exact h
    | [s] => exact h
    | a :: b :: rest =>
      rcases h with ⟨h1, h2, h3⟩
      by_cases hy : a.y = b.y
      · show chainFrom lo hi (if a.y = b.y then mergeFuel n (⟨a.x, a.y, a.w + b.w⟩ :: rest)
          else a :: mergeFuel n (b :: rest))
        rw [if_pos hy]
        refine ih ?_
        refine ⟨h1, ?_⟩
        show chainFrom (a.x + (a.w + b.w)) hi rest
        exact chainFrom_anti (by omega) h3
      · show chainFrom lo hi (if a.y = b.y then mergeFuel n (⟨a.x, a.y, a.w + b.w⟩ :: rest)
          else a :: mergeFuel n (b :: rest))
        rw [if_neg hy]
        exact ⟨h1, ih ⟨h2, h3⟩⟩

theorem mergeList_chain {l : List Skyline} {lo hi : Nat}
    (h : chainFrom lo hi l) : chainFrom lo hi (mergeList l) :=
  mergeFuel_chain l.length h

theorem mergeFuel_ne_nil : ∀ (fuel : Nat) {l : List Skyline},
    l ≠ [] → mergeFuel fuel l ≠ [] := by
  intro fuel
  induction fuel with
  | zero => intro l h; exact h
  | succ n ih =>
    intro l h
    match l with
    | [s] => simp [mergeFuel]
    | a :: b :: rest =>
      show (if a.y = b.y then mergeFuel n (⟨a.x, a.y, a.w + b.w⟩ :: rest)
          else a :: mergeFuel n (b :: rest)) ≠ []
      by_cases hy : a.y = b.y
      · rw [if_pos hy]
        exact ih (by simp)
      · rw [if_neg hy]
        simp

theorem mergeList_ne_nil {l : List Skyline} (h : l ≠ []) : mergeList l ≠ [] :=
  mergeFuel_ne_nil l.length h

theorem mergeFuel_enough : ∀ (fuel1 fuel2 : Nat) (l : List Skyline),
    l.length ≤ fuel1 → l.length ≤ fuel2 → mergeFuel fuel1 l = mergeFuel fuel2 l := by
  intro fuel1
  induction fuel1 with
  | zero =>
    intro fuel2 l h1 h2
    have : l = [] := List.length_eq_zero.mp (by omega)
    subst this
    cases fuel2 with
    | zero => rfl
    | succ m => rfl
  | succ n ih =>
    intro fuel2 l h1 h2
    match l with
    | [] =>
      cases fuel2 with
      | zero => rfl
      | succ m => rfl
    | [s] =>
      cases fuel2 with
      | zero => simp at h2
      | succ m => rfl
    | a :: b :: rest =>
      cases fuel2 with
      | zero => simp at h2
      | succ m =>
        show (if a.y = b.y then mergeFuel n (⟨a.x, a.y, a.w + b.w⟩ :: rest)
            else a :: mergeFuel n (b :: rest)) =
          (if a.y = b.y then mergeFuel m (⟨a.x, a.y, a.w + b.w⟩ :: rest)
            else a :: mergeFuel m (b :: rest))
        by_cases hy : a.y = b.y
        · rw [if_pos hy, if_pos hy]
          refine ih m _ ?_ ?_
          · simp at h1 ⊢
            omega
          · simp at h2 ⊢
            omega
        · rw [if_neg hy, if_neg hy]
          rw [ih m (b :: rest) (by simp at h1 ⊢; omega) (by simp at h2 ⊢; omega)]

theorem split_some_elim {p : SkylinePacker} {i : Nat} {rect : Rect} {p1 : SkylinePacker}
    (hs : split p i rect = some p1) :
    Skyline.right ⟨rect.left, rect.bottom + 1, rect.w⟩ ≤ p.border.right ∧
    rect.bottom + 1 ≤ p.border.bottom ∧
    ∃ tail, splitLoop ⟨rect.left, rect.bottom + 1, rect.w⟩ (p.skylines.drop i) = some tail ∧
      p1 = { p with
              skylines := p.skylines.take i ++
                (⟨rect.left, rect.bottom + 1, rect.w⟩ : Skyline) :: tail } := by
  unfold split at hs
  simp only [] at hs
  split at hs
  · rename_i hcond
    split at hs
    · cases hs
    · rename_i tail htail
      simp only [Option.some.injEq] at hs
      exact ⟨hcond.1, hcond.2, tail, htail, hs.symm⟩
  · cases hs

theorem split_some_intro {p : SkylinePacker} {i : Nat} {rect : Rect} {tail : List Skyline}
    (h1 : Skyline.right ⟨rect.left, rect.bottom + 1, rect.w⟩ ≤ p.border.right)
    (h2 : rect.bottom + 1 ≤ p.border.bottom)
    (h3 : splitLoop ⟨rect.left, rect.bottom + 1, rect.w⟩ (p.skylines.drop i) = some tail) :
    split p i rect = some { p with
      skylines := p.skylines.take i ++
        (⟨rect.left, rect.bottom + 1, rect.w⟩ : Skyline) :: tail } := by
  unfold split
  simp only []
  rw [if_pos ⟨h1, h2⟩, h3]

theorem pack_some_elim {K : Type} {p : SkylinePacker} {k : K} {tr : Rect} {f : Frame K}
    {p' : SkylinePacker} (hp : pack p k tr = some (some (f, p'))) :
    ∃ i rect p1,
      findSkyline p (tr.w + (p.config.texture_padding + p.config.texture_extrusion * 2))
          (tr.h + (p.config.texture_padding + p.config.texture_extrusion * 2)) =
        some (some (i, rect)) ∧
      split p i rect = some p1 ∧ p' = merge p1 ∧
      f.frame = ⟨rect.x, rect.y,
        rect.w - (p.config.texture_padding + p.config.texture_extrusion * 2),
        rect.h - (p.config.texture_padding + p.config.texture_extrusion * 2)⟩ := by
  unfold pack at hp
  simp only [] at hp
  split at hp
  · cases hp
  · cases hp
  · rename_i i rect hfs
    split at hp
    · cases hp
    · rename_i p1 hsplit
      simp only [Option.some.injEq, Prod.mk.injEq] at hp
      obtain ⟨hf, hp'⟩ := hp
      refine ⟨i, rect, p1, ?_, hsplit, hp'.symm, ?_⟩
      · exact hfs
      · rw [← hf]

theorem CandE_elim {p : SkylinePacker} {w h i : Nat} {r : Rect} (hc : CandE p w h i r) :
    ∃ w0 h0, (w0 = w ∧ h0 = h ∨ w0 = h ∧ h0 = w) ∧ canPut p i w0 h0 = some (some r) := by
  rcases hc with hc | hc
  · exact ⟨w, h, Or.inl ⟨rfl, rfl⟩, hc⟩
  · exact ⟨h, w, Or.inr ⟨rfl, rfl⟩, hc.2⟩

theorem canPut_some_seg {p : SkylinePacker} {i w h : Nat} {r : Rect}
    (hcp : canPut p i w h = some (some r)) (hw : 1 ≤ w) :
    ∃ s ∈ p.skylines, 1 ≤ s.w := by
  unfold canPut at hcp
  split at hcp
  · cases hcp
  · rename_i s rest heq
    have := canPutAux_some_seg hcp hw
    rcases this with ⟨t, ht, htw⟩
    refine ⟨t, ?_, htw⟩
    have : t ∈ p.skylines.drop i := by rw [heq]; exact ht
    exact List.mem_of_mem_drop this

theorem pack_preserves_chainInv {K : Type} {p : SkylinePacker} {k : K} {tr : Rect}
    {f : Frame K} {p' : SkylinePacker} (hInv : p.ChainInv)
    (hp : pack p k tr = some (some (f, p'))) : p'.ChainInv := by
  obtain ⟨hb, hch⟩ := hInv
  obtain ⟨i, rect, p1, hfs, hsplit, hp', hframe⟩ := pack_some_elim hp
  obtain ⟨hi, hcand⟩ := findSkyline_some_elim hfs
  obtain ⟨w0, h0, hor, hcp⟩ := CandE_elim hcand
  obtain ⟨hi2, hrx, hrw, hrh, hcont⟩ := canPut_some_elim hcp
  rw [List.getD_eq_getElem _ _ hi] at hrx
  obtain ⟨htake, hdrop⟩ := chainFrom_take_drop hi hch
  have hmem_i : p.skylines[i] ∈ p.skylines := List.getElem_mem _
  have hxiw := chainFrom_mem hch hmem_i
  have he : rect.x + rect.w ≤ p.config.max_width := by
    by_cases hw0 : rect.w = 0
    · rw [hw0, hrx]
      omega
    · have hseg : ∃ s ∈ p.skylines, 1 ≤ s.w := by
        refine canPut_some_seg hcp ?_
        omega
      obtain ⟨s, hs, hsw⟩ := hseg
      have hmw1 : 1 ≤ p.config.max_width := by
        have := chainFrom_mem hch hs
        omega
      rw [hb] at hcont
      simp only [Rect.contains, Rect.left, Rect.right, Rect.top, Rect.bottom,
        Bool.and_eq_true, decide_eq_true_eq] at hcont
      omega
  obtain ⟨ha1, ha2, tail, htail, hp1⟩ := split_some_elim hsplit
  have hchain' := @splitLoop_chain (p.skylines.drop i)
      ⟨rect.left, rect.bottom + 1, rect.w⟩ (p.skylines[i].x) p.config.max_width
      hdrop (le_of_eq hrx) he
  obtain ⟨l', heq, hch'⟩ := hchain'
  rw [htail] at heq
  have hll : l' = tail := by
    simpa using heq.symm
  subst hll
  have hfull : chainFrom 0 p.config.max_width
      (p.skylines.take i ++ (⟨rect.left, rect.bottom + 1, rect.w⟩ : Skyline) :: l') := by
    refine chainFrom_append htake ?_
    refine ⟨?_, ?_⟩
    · show p.skylines[i].x ≤ rect.x
      omega
    · show chainFrom (rect.x + rect.w) p.config.max_width l'
      exact hch'
  constructor
  · show p'.border = _
    rw [hp', hp1]
    exact hb
  · rw [hp', hp1]
    show chainFrom 0 p.config.max_width
      (mergeList (p.skylines.take i ++ (⟨rect.left, rect.bottom + 1, rect.w⟩ : Skyline) :: l'))
    exact mergeList_chain hfull

theorem pack_preserves_profileInv {K : Type} {p : SkylinePacker} {k : K} {tr : Rect}
    {f : Frame K} {p' : SkylinePacker} (hInv : p.ProfileInv)
    (hw : 1 ≤ tr.w + p.config.texture_padding + p.config.texture_extrusion * 2)
    (hh : 1 ≤ tr.h + p.config.texture_padding + p.config.texture_extrusion * 2)
    (hp : pack p k tr = some (some (f, p'))) : p'.ProfileInv ∧ p'.skylines ≠ [] := by
  obtain ⟨hb, ht⟩ := hInv
  obtain ⟨i, rect, p1, hfs, hsplit, hp', hframe⟩ := pack_some_elim hp
  obtain ⟨hi, hcand⟩ := findSkyline_some_elim hfs
  obtain ⟨w0, h0, hor, hcp⟩ := CandE_elim hcand
  obtain ⟨hi2, hrx, hrw, hrh, hcont⟩ := canPut_some_elim hcp
  rw [List.getD_eq_getElem _ _ hi] at hrx
  obtain ⟨htake, hdrop⟩ := tilesFrom_take_drop hi ht
  have hmem_i : p.skylines[i] ∈ p.skylines := List.getElem_mem _
  have hxiw := tilesFrom_mem ht hmem_i
  have hmw1 : 1 ≤ p.config.max_width := by omega
  have hrw1 : 1 ≤ rect.w := by
    rcases hor with ⟨he1, _⟩ | ⟨he1, _⟩
    · omega
    · omega
  have he : rect.x + rect.w ≤ p.config.max_width := by
    rw [hb] at hcont
    simp only [Rect.contains, Rect.left, Rect.right, Rect.top, Rect.bottom,
      Bool.and_eq_true, decide_eq_true_eq] at hcont
    omega
  obtain ⟨ha1, ha2, tail, htail, hp1⟩ := split_some_elim hsplit
  have htiles' := @splitLoop_tiles (p.skylines.drop i)
      ⟨rect.left, rect.bottom + 1, rect.w⟩ (p.skylines[i].x) p.config.max_width
      hdrop (le_of_eq hrx) (by show p.skylines[i].x ≤ rect.x + rect.w; omega) he hrw1
  obtain ⟨l', heq, ht'⟩ := htiles'
  rw [htail] at heq
  have hll : l' = tail := by
    simpa using heq.symm
  subst hll
  have hfull : tilesFrom 0 p.config.max_width
      (p.skylines.take i ++ (⟨rect.left, rect.bottom + 1, rect.w⟩ : Skyline) :: l') := by
    refine tilesFrom_append htake ?_
    refine ⟨?_, ?_, ?_⟩
    · show rect.x = p.skylines[i].x
      exact hrx
    · show 0 < rect.w
      omega
    · show tilesFrom (p.skylines[i].x + rect.w) p.config.max_width l'
      rw [← hrx]
      exact ht'
  refine ⟨⟨?_, ?_⟩, ?_⟩
  · show p'.border = _
    rw [hp', hp1]
    exact hb
  · rw [hp', hp1]
    show tilesFrom 0 p.config.max_width
      (mergeList (p.skylines.take i ++ (⟨rect.left, rect.bottom + 1, rect.w⟩ : Skyline) :: l'))
    exact mergeList_tiles hfull
  · rw [hp', hp1]
    show mergeList (p.skylines.take i ++ (⟨rect.left, rect.bottom + 1, rect.w⟩ : Skyline) :: l') ≠ []
    refine mergeList_ne_nil ?_
    simp

theorem new_chainInv (config : TexturePackerConfig) : (SkylinePacker.new config).ChainInv := by
  refine ⟨rfl, ?_⟩
  show chainFrom 0 config.max_width [⟨0, 0, config.max_width⟩]
  refine ⟨Nat.zero_le _, ?_⟩
  show 0 + config.max_width ≤ config.max_width
  omega

theorem reachable_chainInv {p : SkylinePacker} (hr : Reachable p) : p.ChainInv := by
  induction hr with
  | init config => exact new_chainInv config
  | step hr hp ih => exact pack_preserves_chainInv ih hp

theorem canPut_some_x_bound {p : SkylinePacker} {mw mh : Nat}
    (hb : p.border = ⟨0, 0, mw, mh⟩) (hch : chainFrom 0 mw p.skylines)
    {i w0 h0 : Nat} {rect : Rect} (hcp : canPut p i w0 h0 = some (some rect)) :
    rect.x + rect.w ≤ mw := by
  obtain ⟨hi, hrx, hrw, hrh, hcont⟩ := canPut_some_elim hcp
  rw [List.getD_eq_getElem _ _ hi] at hrx
  have hxiw := chainFrom_mem hch (List.getElem_mem _ : p.skylines[i] ∈ p.skylines)
  by_cases hw0 : rect.w = 0
  · omega
  · obtain ⟨s, hs, hsw⟩ := canPut_some_seg hcp (by omega)
    have hsb := chainFrom_mem hch hs
    rw [hb] at hcont
    simp only [Rect.contains, Rect.left, Rect.right, Rect.top, Rect.bottom,
      Bool.and_eq_true, decide_eq_true_eq] at hcont
    omega

/-- C1: for every packer state reachable by a sequence of `pack` calls,
whenever `pack` returns `Some(frame)` the returned frame rectangle lies
fully within the bin: `frame.x + frame.w ≤ max_width` and
`frame.y + frame.h ≤ max_height`, i.e. the frame is contained in
`[0, max_width) × [0, max_height)`. -/
theorem packed_frame_within_bin {K : Type} {p : SkylinePacker} (hr : Reachable p)
    {k : K} {tr : Rect} {f : Frame K} {p' : SkylinePacker}
    (hp : pack p k tr = some (some (f, p'))) :
    f.frame.x + f.frame.w ≤ p.config.max_width ∧
      f.frame.y + f.frame.h ≤ p.config.max_height := by
  obtain ⟨hb, hch⟩ := reachable_chainInv hr
  obtain ⟨i, rect, p1, hfs, hsplit, hp', hframe⟩ := pack_some_elim hp
  obtain ⟨hi, hcand⟩ := findSkyline_some_elim hfs
  obtain ⟨w0, h0, hor, hcp⟩ := CandE_elim hcand
  have hx := canPut_some_x_bound hb hch hcp
  obtain ⟨ha1, ha2, tail, htail, hp1⟩ := split_some_elim hsplit
  rw [hb] at ha2
  simp only [Rect.bottom] at ha2
  rw [hframe]
  constructor
  · show rect.x + (rect.w - (p.config.texture_padding + p.config.texture_extrusion * 2)) ≤
      p.config.max_width
    omega
  · show rect.y + (rect.h - (p.config.texture_padding + p.config.texture_extrusion * 2)) ≤
      p.config.max_height
    omega

/-- Witness for C1 at a concrete input: a fresh 10×10 packer, packing a 3×3
rectangle, yields a frame within the bin. -/
theorem packed_frame_within_bin_witness :
    (⟨(), ⟨0, 0, 3, 3⟩, false, false, ⟨0, 0, 3, 3⟩⟩ : Frame Unit).frame.x +
        (⟨(), ⟨0, 0, 3, 3⟩, false, false, ⟨0, 0, 3, 3⟩⟩ : Frame Unit).frame.w ≤ 10 ∧
      (⟨(), ⟨0, 0, 3, 3⟩, false, false, ⟨0, 0, 3, 3⟩⟩ : Frame Unit).frame.y +
        (⟨(), ⟨0, 0, 3, 3⟩, false, false, ⟨0, 0, 3, 3⟩⟩ : Frame Unit).frame.h ≤ 10 :=
  have hp : pack (SkylinePacker.new ⟨10, 10, false, 0, 0⟩) () (⟨0, 0, 3, 3⟩ : Rect) =
      some (some (⟨(), ⟨0, 0, 3, 3⟩, false, false, ⟨0, 0, 3, 3⟩⟩,
        (⟨⟨10, 10, false, 0, 0⟩, ⟨0, 0, 10, 10⟩,
          [⟨0, 3, 3⟩, ⟨3, 0, 7⟩]⟩ : SkylinePacker))) := by decide
  packed_frame_within_bin (Reachable.init ⟨10, 10, false, 0, 0⟩) hp

/-- C6: the two untrimmed-center-offset formulations agree in the source's
integer arithmetic: for every frame,
`Frame::offset_to_frame_center_before_trimming` equals, coordinate-wise, the
center returned by `Frame::frame_center_before_trimming` minus the trimmed
(placed) frame's center `(frame.x + frame.w / 2, frame.y + frame.h / 2)`. -/
theorem offset_equals_center_difference {K : Type} (f : Frame K) :
    f.offset_to_frame_center_before_trimming =
      (f.frame_center_before_trimming.1 - (f.frame.x + f.frame.w / 2),
        f.frame_center_before_trimming.2 - (f.frame.y + f.frame.h / 2)) := by
  cases hf : f.trimmed
  · simp [Frame.offset_to_frame_center_before_trimming,
      Frame.frame_center_before_trimming, hf]
  · simp [Frame.offset_to_frame_center_before_trimming,
      Frame.frame_center_before_trimming, hf]

/-- C9: `SubTexture::set` on a borrowing view (built with `from_ref`) panics
for every coordinate and pixel value without writing anything, while on an
owning view (built with `new`) it delegates the write to the parent texture
at the translated coordinates `(source.x + x, source.y + y)`. -/
theorem subtexture_set_borrowed_panics {Pixel : Type}
    (t : PixSurface Pixel) (source : Rect) (x y : Nat) (v : Pixel) :
    (SubTexture.from_ref t source).set x y v = none ∧
    (SubTexture.new t source).set x y v =
      some ⟨Cow.owned (t.set (source.x + x) (source.y + y) v), source⟩ :=
  ⟨rfl, rfl⟩

/-- C10: `SubTexture::get` performs no bound check against the
sub-rectangle: it always reads the parent at `(source.x + x, source.y + y)`;
in particular a read with `x ≥ width()` can still return a pixel taken from
the parent outside the sub-region (concrete instance: a 2-wide sub-texture
read at `x = 5`). -/
theorem subtexture_get_unchecked :
    (∀ (Pixel : Type) (st : SubTexture Pixel) (x y : Nat),
      st.get x y = st.texture.deref.get (st.source.x + x) (st.source.y + y)) ∧
    (SubTexture.from_ref (⟨4, 4, fun _ _ => some 7⟩ : PixSurface Nat) ⟨1, 1, 2, 2⟩).get 5 0 =
        some 7 ∧
    (SubTexture.from_ref (⟨4, 4, fun _ _ => some 7⟩ : PixSurface Nat) ⟨1, 1, 2, 2⟩).width ≤ 5 :=
  ⟨fun _ _ _ _ => rfl, rfl, by decide⟩

/-- C8: under the skyline-profile invariant, the end-of-chain assertion
inside `can_put` is unreachable for every start index `i < len` and all `w`,
`h`: `can_put` never panics (the border-containment check returns `None`
before the walk can step past the last segment). -/
theorem can_put_assert_unreachable {p : SkylinePacker} (hInv : p.ProfileInv)
    {i : Nat} (hi : i < p.skylines.length) (w h : Nat) :
    canPut p i w h ≠ none :=
  canPut_ne_none hInv hi w h

/-- Witness for C8 at a concrete input: a fresh 10×10 packer, start index 0,
an over-wide 20×5 request (which walks to the end of the single-segment
profile) does not panic. -/
theorem can_put_assert_unreachable_witness :
    canPut (SkylinePacker.new ⟨10, 10, false, 0, 0⟩) 0 20 5 ≠ none :=
  can_put_assert_unreachable (by decide) (by decide) 20 5

/-- C4: whenever `can_put(i, w, h)` returns `Some(rect)`, `rect.x` equals
`skylines[i].x`, `rect.w = w`, `rect.h = h`, and `rect.y` is the maximum `y`
among the consecutive segments spanned while accumulating width `w` starting
at `i` (bottom-justified placement); and `can_put` returns `None` whenever
the candidate rectangle at that `y` would exceed the bin's border. -/
theorem can_put_placement_characterization {p : SkylinePacker} (hInv : p.ProfileInv)
    {i : Nat} (hi : i < p.skylines.length) (w h : Nat) :
    (∀ r, canPut p i w h = some (some r) →
      r = ⟨(p.skylines.getD i ⟨0, 0, 0⟩).x,
        maxYList ((p.skylines.drop i).take (spanLen (p.skylines.drop i) w)), w, h⟩) ∧
    (p.border.contains ⟨(p.skylines.getD i ⟨0, 0, 0⟩).x,
        maxYList ((p.skylines.drop i).take (spanLen (p.skylines.drop i) w)), w, h⟩ = false →
      canPut p i w h = some none) := by
  have hd := List.drop_eq_getElem_cons hi
  have hgetD : p.skylines.getD i ⟨0, 0, 0⟩ = p.skylines[i] := List.getD_eq_getElem _ _ hi
  have hfirst : ∀ r, canPut p i w h = some (some r) →
      r = ⟨(p.skylines.getD i ⟨0, 0, 0⟩).x,
        maxYList ((p.skylines.drop i).take (spanLen (p.skylines.drop i) w)), w, h⟩ := by
    intro r hr
    unfold canPut at hr
    rw [hd] at hr
    have hy := canPutAux_some_y hr
    rw [hy]
    rw [hgetD, hd, Nat.zero_max]
  refine ⟨hfirst, ?_⟩
  intro hcf
  rcases hcp : canPut p i w h with _ | o
  · exact absurd hcp (canPut_ne_none hInv hi w h)
  · cases o with
    | none => rfl
    | some r =>
      exfalso
      have hr := hfirst r hcp
      have hcont := (canPut_some_elim hcp).2.2.2.2
      rw [hr] at hcont
      rw [hcont] at hcf
      cases hcf

/-- Counterexample to C2 as stated.  Two failures: (a) with
`max_width = 0` the freshly constructed packer's single segment has width 0,
so the initial state already violates the invariant (which requires `w > 0`
for every segment); (b) from a 10×10 state satisfying the invariant, packing
a zero-width texture (no padding/extrusion) succeeds and inserts the
zero-width segment `{x := 5, y := 1, w := 0}`, so the invariant is not
preserved by every successful pack. -/
theorem profile_invariant_counterexample :
    ¬ (SkylinePacker.new ⟨0, 5, false, 0, 0⟩).ProfileInv ∧
    (⟨⟨10, 10, false, 0, 0⟩, ⟨0, 0, 10, 10⟩,
        [⟨0, 6, 5⟩, ⟨5, 0, 5⟩]⟩ : SkylinePacker).ProfileInv ∧
    pack (⟨⟨10, 10, false, 0, 0⟩, ⟨0, 0, 10, 10⟩,
        [⟨0, 6, 5⟩, ⟨5, 0, 5⟩]⟩ : SkylinePacker) () (⟨0, 0, 0, 1⟩ : Rect) =
      some (some (⟨(), ⟨5, 0, 0, 1⟩, false, false, ⟨0, 0, 0, 1⟩⟩,
        (⟨⟨10, 10, false, 0, 0⟩, ⟨0, 0, 10, 10⟩,
          [⟨0, 6, 5⟩, ⟨5, 1, 0⟩, ⟨5, 0, 5⟩]⟩ : SkylinePacker))) ∧
    ¬ (⟨⟨10, 10, false, 0, 0⟩, ⟨0, 0, 10, 10⟩,
        [⟨0, 6, 5⟩, ⟨5, 1, 0⟩, ⟨5, 0, 5⟩]⟩ : SkylinePacker).ProfileInv :=
  ⟨by decide, by decide, by decide, by decide⟩

/-- C2 (amended): provided `max_width > 0`, the skyline-profile invariant
(segments consecutive and sorted by `x`, every width positive, spans exactly
partitioning `[0, max_width)`) holds in the initial state; and it is
preserved by every successful `pack` whose padded width and height are at
least 1 (equivalently, by every pack except that of a degenerate zero-sized
texture with zero padding and extrusion, whose `u32` edge arithmetic
underflows in the source).  The resulting profile never has fewer than one
segment. -/
theorem profile_invariant_init_and_preserved {K : Type} :
    (∀ config : TexturePackerConfig, 0 < config.max_width →
      (SkylinePacker.new config).ProfileInv) ∧
    (∀ (p : SkylinePacker) (k : K) (tr : Rect) (f : Frame K) (p' : SkylinePacker),
      p.ProfileInv →
      1 ≤ tr.w + p.config.texture_padding + p.config.texture_extrusion * 2 →
      1 ≤ tr.h + p.config.texture_padding + p.config.texture_extrusion * 2 →
      pack p k tr = some (some (f, p')) → p'.ProfileInv ∧ p'.skylines ≠ []) := by
  constructor
  · intro config hmw
    refine ⟨rfl, ?_⟩
    show tilesFrom 0 config.max_width [⟨0, 0, config.max_width⟩]
    refine ⟨rfl, hmw, ?_⟩
    show 0 + config.max_width = config.max_width
    omega
  · intro p k tr f p' hInv hw hh hp
    exact pack_preserves_profileInv hInv (by omega) (by omega) hp

/-- Witness for C2 (amended) at concrete inputs: the invariant holds for a
fresh 10×10 packer, and after packing a 3×3 texture into it. -/
theorem profile_invariant_init_and_preserved_witness :
    (SkylinePacker.new ⟨10, 10, false, 0, 0⟩).ProfileInv ∧
    ((⟨⟨10, 10, false, 0, 0⟩, ⟨0, 0, 10, 10⟩,
        [⟨0, 3, 3⟩, ⟨3, 0, 7⟩]⟩ : SkylinePacker).ProfileInv ∧
      (⟨⟨10, 10, false, 0, 0⟩, ⟨0, 0, 10, 10⟩,
        [⟨0, 3, 3⟩, ⟨3, 0, 7⟩]⟩ : SkylinePacker).skylines ≠ []) := by
  constructor
  · exact (@profile_invariant_init_and_preserved Unit).1 ⟨10, 10, false, 0, 0⟩ (by decide)
  · refine (@profile_invariant_init_and_preserved Unit).2
      (SkylinePacker.new ⟨10, 10, false, 0, 0⟩) () (⟨0, 0, 3, 3⟩ : Rect)
      ⟨(), ⟨0, 0, 3, 3⟩, false, false, ⟨0, 0, 3, 3⟩⟩
      (⟨⟨10, 10, false, 0, 0⟩, ⟨0, 0, 10, 10⟩, [⟨0, 3, 3⟩, ⟨3, 0, 7⟩]⟩ : SkylinePacker)
      (by decide) (by decide) (by decide) (by decide)

/-- Witness for C4 at a concrete input: fresh 10×10 packer, start index 0,
request 3×3; the characterized placement is `(0, 0, 3, 3)`. -/
theorem can_put_placement_characterization_witness :
    (∀ r, canPut (SkylinePacker.new ⟨10, 10, false, 0, 0⟩) 0 3 3 = some (some r) →
      r = ⟨0, 0, 3, 3⟩) ∧
    ((SkylinePacker.new ⟨10, 10, false, 0, 0⟩).border.contains ⟨0, 0, 3, 3⟩ = false →
      canPut (SkylinePacker.new ⟨10, 10, false, 0, 0⟩) 0 3 3 = some none) :=
  can_put_placement_characterization (by decide) (by decide) 3 3

theorem clampU_zero_le (v hi : Nat) : clampU v 0 hi ≤ hi := by
  unfold clampU
  split
  · omega
  · split
    · omega
    · omega

/-- Counterexample to C7 as stated: the clamp's upper bounds are `border.w`
and `border.h` themselves, so for a trimmed frame whose untrimmed center
falls outside the bin, the result is exactly `(max_width, max_height)` —
which does not lie inside the half-open bin `[0, max_width) × [0,
max_height)`. -/
theorem frame_center_clamp_counterexample :
    (SkylinePacker.new ⟨10, 10, false, 0, 0⟩).frame_center_before_trimming
        (⟨(), ⟨5, 5, 1, 1⟩, false, true, ⟨0, 0, 100, 100⟩⟩ : Frame Unit) = (10, 10) ∧
    ¬ ((SkylinePacker.new ⟨10, 10, false, 0, 0⟩).frame_center_before_trimming
        (⟨(), ⟨5, 5, 1, 1⟩, false, true, ⟨0, 0, 100, 100⟩⟩ : Frame Unit)).1 <
      (SkylinePacker.new ⟨10, 10, false, 0, 0⟩).config.max_width :=
  ⟨by decide, by decide⟩

/-- C7 (amended): for every trimmed frame,
`SkylinePacker::frame_center_before_trimming` back-computes the original
top-left as `(frame.x − source.x, frame.y − source.y)`, adds half the
original untrimmed size `(source.w / 2, source.h / 2)`, and clamps the
result coordinate-wise to the closed ranges `[0, max_width]` and
`[0, max_height]` (the clamp's upper bounds are inclusive, so the result can
equal `max_width`/`max_height` but never exceeds them). -/
theorem frame_center_clamped_to_closed_border {K : Type} {p : SkylinePacker}
    (hb : p.border = ⟨0, 0, p.config.max_width, p.config.max_height⟩)
    (f : Frame K) (htr : f.trimmed = true) :
    p.frame_center_before_trimming f =
      (clampU (f.frame.x - f.source.x + f.source.w / 2) 0 p.config.max_width,
        clampU (f.frame.y - f.source.y + f.source.h / 2) 0 p.config.max_height) ∧
    (p.frame_center_before_trimming f).1 ≤ p.config.max_width ∧
    (p.frame_center_before_trimming f).2 ≤ p.config.max_height := by
  have heq : p.frame_center_before_trimming f =
      (clampU (f.frame.x - f.source.x + f.source.w / 2) 0 p.config.max_width,
        clampU (f.frame.y - f.source.y + f.source.h / 2) 0 p.config.max_height) := by
    unfold SkylinePacker.frame_center_before_trimming
    rw [htr, hb]
    rfl
  refine ⟨heq, ?_, ?_⟩
  · rw [heq]
    exact clampU_zero_le _ _
  · rw [heq]
    exact clampU_zero_le _ _

/-- Witness for C7 (amended) at a concrete input: a 10×10 packer and a
trimmed frame placed at (5,5) with trim offset (1,1) and original size 8×8;
the untrimmed center is (8,8), within the closed border. -/
theorem frame_center_clamped_to_closed_border_witness :
    (SkylinePacker.new ⟨10, 10, false, 0, 0⟩).frame_center_before_trimming
        (⟨(), ⟨5, 5, 2, 2⟩, false, true, ⟨1, 1, 8, 8⟩⟩ : Frame Unit) = (8, 8) ∧
    ((SkylinePacker.new ⟨10, 10, false, 0, 0⟩).frame_center_before_trimming
        (⟨(), ⟨5, 5, 2, 2⟩, false, true, ⟨1, 1, 8, 8⟩⟩ : Frame Unit)).1 ≤ 10 ∧
    ((SkylinePacker.new ⟨10, 10, false, 0, 0⟩).frame_center_before_trimming
        (⟨(), ⟨5, 5, 2, 2⟩, false, true, ⟨1, 1, 8, 8⟩⟩ : Frame Unit)).2 ≤ 10 :=
  frame_center_clamped_to_closed_border rfl
    (⟨(), ⟨5, 5, 2, 2⟩, false, true, ⟨1, 1, 8, 8⟩⟩ : Frame Unit) rfl

/-- C5: for every packer state satisfying the profile invariant and every
texture rectangle, if `can_pack` returns `true` then `pack` with the same
rectangle on that same state (no intervening packs) succeeds, and the
returned frame's bottom edge is equal-or-better (never worse) than the
bottom of the placement the dry-run computed.  `can_pack` cannot mutate the
state: in this embedding it is a pure function of the state, mirroring the
shared `&self` borrow in the source. -/
theorem can_pack_implies_pack_succeeds {K : Type} {p : SkylinePacker}
    (hInv : p.ProfileInv) (k : K) (tr : Rect)
    (hcp : canPack p tr = some true) :
    ∃ i rect f p',
      findSkyline p (tr.w + (p.config.texture_padding + p.config.texture_extrusion * 2))
          (tr.h + (p.config.texture_padding + p.config.texture_extrusion * 2)) =
        some (some (i, rect)) ∧
      pack p k tr = some (some (f, p')) ∧
      f.frame.bottom ≤ rect.bottom := by
  obtain ⟨hb, ht⟩ := hInv
  unfold canPack at hcp
  simp only [] at hcp
  split at hcp
  · cases hcp
  · simp at hcp
  · rename_i i rect hfs
    simp only [Option.some.injEq, Bool.and_eq_true, decide_eq_true_eq] at hcp
    obtain ⟨ha1, ha2⟩ := hcp
    obtain ⟨hi, hcand⟩ := findSkyline_some_elim hfs
    obtain ⟨w0, h0, hor, hcpq⟩ := CandE_elim hcand
    obtain ⟨hi2, hrx, hrw, hrh, hcont⟩ := canPut_some_elim hcpq
    obtain ⟨htake, hdrop⟩ := tilesFrom_take_drop hi ht
    have hsorted : ∀ s ∈ p.skylines.drop i,
        (⟨rect.left, rect.bottom + 1, rect.w⟩ : Skyline).x ≤ s.x := by
      intro s hs
      have := tilesFrom_mem hdrop hs
      show rect.x ≤ s.x
      rw [List.getD_eq_getElem _ _ hi] at hrx
      omega
    obtain ⟨tail, htail⟩ := splitLoop_some_of_sorted hsorted
    have hsplit := split_some_intro ha1 ha2 htail
    refine ⟨i, rect,
      ⟨k, ⟨rect.x, rect.y,
        rect.w - (p.config.texture_padding + p.config.texture_extrusion * 2),
        rect.h - (p.config.texture_padding + p.config.texture_extrusion * 2)⟩,
        decide (tr.w + (p.config.texture_padding + p.config.texture_extrusion * 2) ≠ rect.w),
        false, ⟨0, 0, tr.w, tr.h⟩⟩,
      merge { p with skylines := p.skylines.take i ++
        (⟨rect.left, rect.bottom + 1, rect.w⟩ : Skyline) :: tail }, hfs, ?_, ?_⟩
    · unfold pack
      simp only [hfs, hsplit]
    · show rect.y + (rect.h -
        (p.config.texture_padding + p.config.texture_extrusion * 2)) - 1 ≤
        rect.y + rect.h - 1
      omega

theorem AccInvS_iff {p : SkylinePacker} {S T : Nat → Rect → Prop} {acc : FsAcc}
    (hss : ∀ j r, S j r ↔ T j r) (h : AccInvS p S acc) : AccInvS p T acc := by
  obtain ⟨h1, h2⟩ := h
  constructor
  · intro hn
    obtain ⟨a, b, c⟩ := h1 hn
    exact ⟨a, b, fun j r hs => c j r ((hss j r).mpr hs)⟩
  · intro i0 hs
    obtain ⟨a, b, c, d, e⟩ := h2 i0 hs
    exact ⟨a, (hss _ _).mp b, c, d, fun j r hsr => e j r ((hss j r).mpr hsr)⟩

theorem canPut_some_bottom_lt {p : SkylinePacker} {mw mh : Nat}
    (hb : p.border = ⟨0, 0, mw, mh⟩) (hmh : mh ≤ u32Max)
    {i w h : Nat} {r : Rect} (hcp : canPut p i w h = some (some r)) :
    r.bottom < u32Max := by
  have hcont := (canPut_some_elim hcp).2.2.2.2
  rw [hb] at hcont
  simp only [Rect.contains, Rect.left, Rect.right, Rect.top, Rect.bottom,
    Bool.and_eq_true, decide_eq_true_eq] at hcont
  unfold Rect.bottom
  have hu : u32Max = 4294967295 := rfl
  omega

theorem fsConsider_AccInvS {p : SkylinePacker} {S : Nat → Rect → Prop} {acc : FsAcc}
    {n sw : Nat} {o : Option Rect}
    (hacc : AccInvS p S acc) (hn : n < p.skylines.length) (hsw : sw = segW p n)
    (hbd : ∀ r, o = some r → r.bottom < u32Max) :
    AccInvS p (fun j r => S j r ∨ (j = n ∧ o = some r)) (fsConsider n sw o acc) := by
  cases o with
  | none =>
    refine AccInvS_iff ?_ hacc
    intro j r
    constructor
    · exact Or.inl
    · rintro (hs | ⟨_, hs⟩)
      · exact hs
      · cases hs
  | some r0 =>
    have hbot : r0.bottom < u32Max := hbd r0 rfl
    obtain ⟨h1, h2⟩ := hacc
    show AccInvS p _ (if fsBetter r0 sw acc then ⟨r0.bottom, sw, some n, r0⟩ else acc)
    by_cases hbet : fsBetter r0 sw acc = true
    · rw [if_pos hbet]
      simp only [fsBetter, Bool.or_eq_true, Bool.and_eq_true, decide_eq_true_eq] at hbet
      constructor
      · intro hidx
        cases hidx
      · intro i0 hidx
        have hi0 : i0 = n := by
          simpa using hidx.symm
        subst hi0
        refine ⟨hn, Or.inr ⟨rfl, rfl⟩, rfl, hsw, ?_⟩
        intro j r hsr
        rcases hsr with hsr | ⟨hj, hr⟩
        · cases hacci : acc.index with
          | none =>
            exact absurd hsr ((h1 hacci).2.2 j r)
          | some i1 =>
            obtain ⟨_, _, hcb, hcw, hmin⟩ := h2 i1 hacci
            have hlex := hmin j r hsr
            unfold lexLE at hlex ⊢
            show r0.bottom < r.bottom ∨ (r0.bottom = r.bottom ∧ sw ≤ segW p j)
            omega
        · subst hj
          have hr0 : r = r0 := by
            injection hr.symm
          subst hr0
          exact Or.inr ⟨rfl, le_of_eq hsw⟩
    · rw [if_neg hbet]
      simp only [fsBetter, Bool.or_eq_true, Bool.and_eq_true, decide_eq_true_eq] at hbet
      constructor
      · intro hidx
        obtain ⟨ha, hb, hc⟩ := h1 hidx
        exfalso
        rw [ha] at hbet
        omega
      · intro i0 hidx
        obtain ⟨ha, hb, hc, hd, he⟩ := h2 i0 hidx
        refine ⟨ha, Or.inl hb, hc, hd, ?_⟩
        intro j r hsr
        rcases hsr with hsr | ⟨hj, hr⟩
        · exact he j r hsr
        · subst hj
          have hr0 : r = r0 := by
            injection hr.symm
          subst hr0
          unfold lexLE
          omega

theorem fsGo_AccInvS : ∀ {is : List Nat} {p : SkylinePacker} {w h : Nat}
    {S : Nat → Rect → Prop} {acc acc' : FsAcc},
    p.ProfileInv → p.config.max_height ≤ u32Max →
    (∀ j ∈ is, j < p.skylines.length) →
    AccInvS p S acc →
    fsGo p w h is acc = some acc' →
    AccInvS p (fun j r => S j r ∨ (j ∈ is ∧ CandE p w h j r)) acc' := by
  intro is
  induction is with
  | nil =>
    intro p w h S acc acc' hInv hmh hmem hacc hgo
    simp only [fsGo, Option.some.injEq] at hgo
    subst hgo
    refine AccInvS_iff ?_ hacc
    intro j r
    simp only [List.not_mem_nil, false_and, or_false]
  | cons i is ih =>
    intro p w h S acc acc' hInv hmh hmem hacc hgo
    have hi : i < p.skylines.length := hmem i (List.mem_cons_self _ _)
    have hmem' : ∀ j ∈ is, j < p.skylines.length :=
      fun j hj => hmem j (List.mem_cons_of_mem _ hj)
    simp only [fsGo] at hgo
    split at hgo
    · cases hgo
    · rename_i o1 ho1
      have hstep1 := fsConsider_AccInvS (o := o1) hacc hi rfl
        (fun r hr => canPut_some_bottom_lt hInv.1 hmh (hr ▸ ho1))
      split at hgo
      · rename_i hrot
        split at hgo
        · cases hgo
        · rename_i o2 ho2
          have hstep2 := fsConsider_AccInvS (o := o2) hstep1 hi rfl
            (fun r hr => canPut_some_bottom_lt hInv.1 hmh (hr ▸ ho2))
          have hfin := ih hInv hmh hmem' hstep2 hgo
          refine AccInvS_iff ?_ hfin
          intro j r
          constructor
          · rintro ((((hs | ⟨hj, hr⟩) | ⟨hj, hr⟩) | ⟨hj, hc⟩))
            · exact Or.inl hs
            · subst hj
              exact Or.inr ⟨List.mem_cons_self _ _, Or.inl (hr ▸ ho1)⟩
            · subst hj
              exact Or.inr ⟨List.mem_cons_self _ _, Or.inr ⟨hrot, hr ▸ ho2⟩⟩
            · exact Or.inr ⟨List.mem_cons_of_mem _ hj, hc⟩
          · rintro (hs | ⟨hj, hc⟩)
            · exact Or.inl (Or.inl (Or.inl hs))
            · rcases List.mem_cons.mp hj with hj | hj
              · subst hj
                rcases hc with hc | ⟨_, hc⟩
                · refine Or.inl (Or.inl (Or.inr ⟨rfl, ?_⟩))
                  rw [ho1] at hc
                  injection hc
                · refine Or.inl (Or.inr ⟨rfl, ?_⟩)
                  rw [ho2] at hc
                  injection hc
              · exact Or.inr ⟨hj, hc⟩
      · rename_i hrot
        have hfin := ih hInv hmh hmem' hstep1 hgo
        refine AccInvS_iff ?_ hfin
        intro j r
        constructor
        · rintro (((hs | ⟨hj, hr⟩) | ⟨hj, hc⟩))
          · exact Or.inl hs
          · subst hj
            exact Or.inr ⟨List.mem_cons_self _ _, Or.inl (hr ▸ ho1)⟩
          · exact Or.inr ⟨List.mem_cons_of_mem _ hj, hc⟩
        · rintro (hs | ⟨hj, hc⟩)
          · exact Or.inl (Or.inl hs)
          · rcases List.mem_cons.mp hj with hj | hj
            · subst hj
              rcases hc with hc | ⟨hc1, _⟩
              · refine Or.inl (Or.inr ⟨rfl, ?_⟩)
                rw [ho1] at hc
                injection hc
              · exact absurd hc1 hrot
            · exact Or.inr ⟨hj, hc⟩

theorem CandE_lt {p : SkylinePacker} {w h j : Nat} {r : Rect}
    (hc : CandE p w h j r) : j < p.skylines.length := by
  rcases hc with hc | ⟨_, hc⟩
  · exact (canPut_some_elim hc).1
  · exact (canPut_some_elim hc).1

/-- C3: `find_skyline(w, h)` considers every segment index as a candidate
start (and, when `allow_rotation` is set, also the swapped orientation `h×w`
at each index — the content of `CandE`) and selects, among all candidates
for which `can_put` succeeds, a placement with the smallest bottom edge
(`y + h − 1`), breaking ties by the smallest starting-segment width; it
returns the Rust `None` exactly when no orientation fits at any start
index.  Stated under the profile invariant (which rules out the `can_put`
panic) and the `u32` range bound on `max_height` (the sentinel initial
bottom is `u32::MAX`). -/
theorem find_skyline_selection {p : SkylinePacker} (hInv : p.ProfileInv)
    (hmh : p.config.max_height ≤ u32Max) (w h : Nat) :
    (findSkyline p w h = some none ↔ ∀ i r, ¬ CandE p w h i r) ∧
    (∀ i r, findSkyline p w h = some (some (i, r)) →
      CandE p w h i r ∧
        ∀ j r', CandE p w h j r' →
          r.bottom < r'.bottom ∨ (r.bottom = r'.bottom ∧ segW p i ≤ segW p j)) := by
  cases hgo : fsGo p w h (List.range p.skylines.length)
      ⟨u32Max, u32Max, none, ⟨0, 0, 0, 0⟩⟩ with
  | none =>
    exact absurd hgo (fsGo_ne_none hInv (fun j hj => List.mem_range.mp hj))
  | some acc =>
    have hres : findSkyline p w h = some (acc.index.map (fun x => (x, acc.rect))) := by
      unfold findSkyline
      rw [hgo]
    have hinit : AccInvS p (fun _ _ => False) ⟨u32Max, u32Max, none, ⟨0, 0, 0, 0⟩⟩ := by
      constructor
      · intro _
        exact ⟨rfl, rfl, fun j r hf => hf⟩
      · intro i0 h0
        cases h0
    have hAcc := fsGo_AccInvS hInv hmh (fun j hj => List.mem_range.mp hj) hinit hgo
    have hAcc2 : AccInvS p (CandE p w h) acc := by
      refine AccInvS_iff ?_ hAcc
      intro j r
      constructor
      · rintro (hf | ⟨_, hc⟩)
        · cases hf
        · exact hc
      · intro hc
        exact Or.inr ⟨List.mem_range.mpr (CandE_lt hc), hc⟩
    obtain ⟨h1, h2⟩ := hAcc2
    constructor
    · constructor
      · intro heq
        rw [hres] at heq
        cases hidx : acc.index with
        | none => exact (h1 hidx).2.2
        | some i0 =>
          rw [hidx] at heq
          simp at heq
      · intro hnocand
        rw [hres]
        cases hidx : acc.index with
        | none => rfl
        | some i0 =>
          obtain ⟨_, hc, _⟩ := h2 i0 hidx
          exact absurd hc (hnocand i0 acc.rect)
    · intro i r heq
      rw [hres] at heq
      cases hidx : acc.index with
      | none =>
        rw [hidx] at heq
        simp at heq
      | some i0 =>
        rw [hidx] at heq
        simp only [Option.map_some', Option.some.injEq, Prod.mk.injEq] at heq
        obtain ⟨hi0, hr0⟩ := heq
        subst hi0
        obtain ⟨_, hc, hcb, hcw, hmin⟩ := h2 i0 hidx
        subst hr0
        refine ⟨hc, ?_⟩
        intro j r' hc'
        have := hmin j r' hc'
        unfold lexLE at this
        omega

/-- Witness for C3 at a concrete input: a fresh 10×10 packer with rotation
off and a 3×3 request. -/
theorem find_skyline_selection_witness :
    (findSkyline (SkylinePacker.new ⟨10, 10, false, 0, 0⟩) 3 3 = some none ↔
      ∀ i r, ¬ CandE (SkylinePacker.new ⟨10, 10, false, 0, 0⟩) 3 3 i r) ∧
    (∀ i r, findSkyline (SkylinePacker.new ⟨10, 10, false, 0, 0⟩) 3 3 = some (some (i, r)) →
      CandE (SkylinePacker.new ⟨10, 10, false, 0, 0⟩) 3 3 i r ∧
        ∀ j r', CandE (SkylinePacker.new ⟨10, 10, false, 0, 0⟩) 3 3 j r' →
          r.bottom < r'.bottom ∨ (r.bottom = r'.bottom ∧
            segW (SkylinePacker.new ⟨10, 10, false, 0, 0⟩) i ≤
              segW (SkylinePacker.new ⟨10, 10, false, 0, 0⟩) j)) :=
  find_skyline_selection (by decide) (by decide) 3 3

/-- Witness for C5 at a concrete input: fresh 10×10 packer, 3×3 texture;
`can_pack` returns `true` and the implied `pack` success is produced. -/
theorem can_pack_implies_pack_succeeds_witness :
    ∃ (i : Nat) (rect : Rect) (f : Frame Unit) (p' : SkylinePacker),
      findSkyline (SkylinePacker.new ⟨10, 10, false, 0, 0⟩) 3 3 = some (some (i, rect)) ∧
      pack (SkylinePacker.new ⟨10, 10, false, 0, 0⟩) () (⟨0, 0, 3, 3⟩ : Rect) =
        some (some (f, p')) ∧
      f.frame.bottom ≤ rect.bottom :=
  can_pack_implies_pack_succeeds (by decide) () ⟨0, 0, 3, 3⟩ (by decide)
